import Mathlib

/-!
Verification of the Holmes VM installer-orchestration engine against its
natural-language specification.

The definitions below are a shallow embedding of the Python sources:

* `src/holmes_vm/core/config.py`       — manifest model and `Config.validate`
* `src/holmes_vm/core/orchestrator.py` — `build_steps_from_selection`, `run_steps`
* `src/holmes_vm/installers/functions.py` — desktop-grouping token scoring,
  `_safe_move`, and `OrganizeDesktopInstaller.install`
* `src/holmes_vm/installers/functions.py` — `CreateShortcutInstaller.install`

Python dictionaries are modelled as structures whose string-valued fields are
`Option String` (a missing key is `none`); Python truthiness of such a field
(`not x`) is the `truthy` predicate below (present and non-empty).
-/

namespace HolmesVM

/-- Python truthiness of an optional string (`item.get(k)` followed by `not v`):
truthy exactly when the key is present and the string non-empty. -/
def truthy : Option String → Bool
  | none => false
  | some s => !s.isEmpty

/-- One entry of a category's `items` list in `tools.json`
(the fields that `config.py` and `orchestrator.py` read). -/
structure Item where
  id : Option String := none
  name : Option String := none
  installer_type : Option String := none
  package_name : Option String := none
  script_path : Option String := none
  function_name : Option String := none
  installer : Option String := none
  desktop_group : Option String := none
  desktop_keywords : List String := []
  /-- `post_install` pin targets carried by the manifest.  No code under
  `src/holmes_vm/core/orchestrator.py` reads this field. -/
  post_install : List String := []
deriving Repr, DecidableEq

/-- The value stored under a category's `items` key: either not a list
(rejected by `validate`) or a list of items. -/
inductive ItemsField
  | notList
  | ofList (items : List Item)
deriving Repr, DecidableEq

/-- One category of `tools.json`.  `validate` only tests the *presence* of the
`id` and `name` keys (`'id' not in cat or 'name' not in cat`), so those are
booleans here. -/
structure Category where
  hasId : Bool := true
  hasName : Bool := true
  /-- `cat.get('items', [])`: `none` models an absent key (defaulting to `[]`). -/
  items : Option ItemsField := none
deriving Repr, DecidableEq

/-- The value stored under the manifest's top-level `categories` key. -/
inductive CategoriesField
  | notList
  | ofList (cats : List Category)
deriving Repr, DecidableEq

/-- The loaded `tools.json` document (`Config.tools_config`). -/
structure Manifest where
  categories : Option CategoriesField := none
deriving Repr, DecidableEq

namespace Config

/-- `Config.get_categories`: `tools_config.get('categories', [])`. -/
def get_categories (m : Manifest) : CategoriesField :=
  m.categories.getD (.ofList [])

/-- Result of `Config.validate` when a logger is attached: the returned
verdict together with the number of warning and error diagnostics emitted. -/
structure ValidateResult where
  ok : Bool
  warns : Nat
  errs : Nat
deriving Repr, DecidableEq

/-- Per-item body of the `for item in items` loop of `Config.validate`
(config.py lines 130–150).  An item missing `id`/`name`/`installer_type`
gets one error and is skipped (`continue`); otherwise each applicable
type-specific check may add one error. -/
def vStepItem (a : ValidateResult) (it : Item) : ValidateResult :=
  if !truthy it.id || !truthy it.name || !truthy it.installer_type then
    ⟨false, a.warns, a.errs + 1⟩
  else
    let a := if it.installer_type == some "chocolatey" && !truthy it.package_name then
               ⟨false, a.warns, a.errs + 1⟩ else a
    let a := if it.installer_type == some "powershell" &&
                (!truthy it.script_path || !truthy it.function_name) then
               ⟨false, a.warns, a.errs + 1⟩ else a
    let a := if it.installer_type == some "function" && !truthy it.installer then
               ⟨false, a.warns, a.errs + 1⟩ else a
    a

/-- Per-category body of the `for cidx, cat in enumerate(cats)` loop of
`Config.validate` (config.py lines 119–150): a category missing `id` or
`name` logs a warning *and sets `ok = False`*; a non-list `items` value logs
an error and skips the item loop. -/
def vStepCat (a : ValidateResult) (c : Category) : ValidateResult :=
  let a := if !(c.hasId && c.hasName) then ⟨false, a.warns + 1, a.errs⟩ else a
  match c.items.getD (.ofList []) with
  | .notList => ⟨false, a.warns, a.errs + 1⟩
  | .ofList items => items.foldl vStepItem a

/-- `Config.validate` (config.py lines 111–151), with a logger attached so
that every diagnostic is counted. -/
def validate (m : Manifest) : ValidateResult :=
  match get_categories m with
  | .notList => ⟨false, 0, 1⟩
  | .ofList cats => cats.foldl vStepCat ⟨true, 0, 0⟩

/-- The invariant tying the verdict to the diagnostics: `ok` holds exactly
when no diagnostic (warning *or* error) has been recorded. -/
def okInv (a : ValidateResult) : Prop :=
  a.ok = (a.warns == 0 && a.errs == 0)

theorem vStepItem_inv (a : ValidateResult) (it : Item) (h : okInv a) :
    okInv (vStepItem a it) := by
  unfold okInv at *
  unfold vStepItem
  split
  · simp
  · dsimp only
    split
    · split <;> split <;> simp
    · split
      · split <;> simp
      · split
        · simp
        · exact h

theorem foldl_vStepItem_inv (l : List Item) :
    ∀ a : ValidateResult, okInv a → okInv (l.foldl vStepItem a) := by
  induction l with
  | nil => intro a h; exact h
  | cons it rest ih => intro a h; exact ih (vStepItem a it) (vStepItem_inv a it h)

theorem vStepCat_inv (a : ValidateResult) (c : Category) (h : okInv a) :
    okInv (vStepCat a c) := by
  unfold vStepCat
  have h1 : okInv (if !(c.hasId && c.hasName) then
      ValidateResult.mk false (a.warns + 1) a.errs else a) := by
    unfold okInv at *
    split <;> simp [h]
  match c.items.getD (.ofList []) with
  | .notList => unfold okInv; simp
  | .ofList items => exact foldl_vStepItem_inv items _ h1

end Config

/-- Example manifest: a single category that *is missing its `name` key* but
whose items are all valid (a complete chocolatey item). -/
def mWarnOnly : Manifest :=
  { categories := some (.ofList [
      { hasId := true, hasName := false,
        items := some (.ofList [
          { id := some "wireshark", name := some "Wireshark",
            installer_type := some "chocolatey",
            package_name := some "wireshark" }]) }]) }

/-- Example manifest: a well-formed category containing a chocolatey item
with no `package_name`. -/
def mChocoErr : Manifest :=
  { categories := some (.ofList [
      { hasId := true, hasName := true,
        items := some (.ofList [
          { id := some "wireshark", name := some "Wireshark",
            installer_type := some "chocolatey" }]) }]) }

/-- C1 (counterexample): the claim says a category missing `name` but with
only valid items yields `validate() == true` (warnings are non-fatal).  On
the code, `validate` of such a manifest returns `False` while having emitted
one warning and zero errors (config.py lines 120–123 set `ok = False` on the
warning path). -/
theorem validate_warning_fatal_cex :
    (Config.validate mWarnOnly).ok = false ∧
    (Config.validate mWarnOnly).errs = 0 ∧
    (Config.validate mWarnOnly).warns = 1 := by
  decide

/-- C1 (amended): `validate` returns `true` iff *no diagnostic at all* was
emitted — warnings are fatal to the verdict exactly like errors.  A category
missing `name` with otherwise valid items yields `false` with one warning
and no error; a chocolatey item missing `package_name` yields `false` with
one error; `validate` never raises and emits one diagnostic per violating
entry. -/
theorem validate_ok_iff_no_diagnostics :
    (∀ m : Manifest, (Config.validate m).ok =
      ((Config.validate m).warns == 0 && (Config.validate m).errs == 0)) ∧
    Config.validate mWarnOnly = ⟨false, 1, 0⟩ ∧
    Config.validate mChocoErr = ⟨false, 0, 1⟩ := by
  refine ⟨?_, by decide, by decide⟩
  intro m
  show Config.okInv (Config.validate m)
  unfold Config.validate
  match Config.get_categories m with
  | .notList => unfold Config.okInv; simp
  | .ofList cats =>
    have : ∀ (l : List Category) (a : Config.ValidateResult), Config.okInv a →
        Config.okInv (l.foldl Config.vStepCat a) := by
      intro l
      induction l with
      | nil => intro a h; exact h
      | cons c rest ih =>
        intro a h
        exact ih (Config.vStepCat a c) (Config.vStepCat_inv a c h)
    exact this cats ⟨true, 0, 0⟩ (by unfold Config.okInv; simp)

/-! ## Catalog lookups (config.py lines 45–109) -/

/-- `cat.get('items', [])` under the assumption — enforced by `validate` and
required for the Python loops not to raise — that the value is a list. -/
def Category.itemsList (c : Category) : List Item :=
  match c.items.getD (.ofList []) with
  | .ofList l => l
  | .notList => []

/-- `Config.get_tool_by_id` (config.py lines 49–55): first item over all
categories whose `id` equals the requested id.  The nested `for` loops with
early `return` are the first match over the concatenation. -/
def get_tool_by_id (cats : List Category) (tid : String) : Option Item :=
  ((cats.map Category.itemsList).flatten).find? (fun it => it.id == some tid)

/-- `Config.get_function_installer_id` (config.py lines 104–109). -/
def get_function_installer_id (cats : List Category) (tid : String) : Option String :=
  match get_tool_by_id cats tid with
  | none => none
  | some it => if it.installer_type == some "function" then it.installer else none

/-! ## Step model (orchestrator.py lines 32–121) -/

/-- Python `f"...{x}..."` formatting of a possibly-`None` string. -/
def pyStr : Option String → String
  | some s => s
  | none => "None"

/-- Python `str.lower()` on the ASCII strings this configuration format
uses (character-wise lowering). -/
def strLower (s : String) : String := ⟨s.data.map Char.toLower⟩

/-- `if desktop_group and desktop_group.lower() != 'runtimes'` — the guard
deciding whether a shortcut creator is bundled into the step. -/
def wantsShortcut (dg : Option String) : Bool :=
  truthy dg && strLower (dg.getD "") != "runtimes"

inductive PrimaryKind
  | choco
  | powershell
deriving Repr, DecidableEq

/-- The action closure stored in a step, kept syntactic so that the step
list's shape can be inspected.  `bundledInstall` is the combined
install-then-shortcut closure (`_do_install_and_shortcut` /
`_do_ps_and_shortcut`); `shortcutTool` is `some` exactly when a
`CreateShortcutInstaller` was bundled. -/
inductive StepAction
  | assertWinAdmin
  | prepGroups
  | funcInstall (installerId : String)
  | bundledInstall (kind : PrimaryKind) (toolId : String) (shortcutTool : Option String)
deriving Repr, DecidableEq

abbrev Step := String × StepAction

/-- The installer registry (`base.py`), abstracted as the partial map from a
registered installer id to the display name (`get_name()`) of the installer
instance `registry.get_installer` would construct. -/
abbrev Registry := String → Option String

/-- `PrepareDesktopGroupsInstaller.get_name()` (functions.py line 21). -/
def prepStepName : String := "Prepare Desktop category folders"

/-- The per-tool body of the `for tool_id in selected_ids` loop of
`build_steps_from_selection` (orchestrator.py lines 39–119): the (zero or
one) steps appended for one selected id. -/
def stepsForTool (cats : List Category) (reg : Registry) (tid : String) : List Step :=
  match get_tool_by_id cats tid with
  | none => []      -- "Tool not found in config" warning, `continue`
  | some t =>
    match t.installer_type with
    | some "function" =>
      match get_function_installer_id cats tid with
      | none => []  -- registry lookup of `None` yields no installer: warning
      | some iid =>
        match reg iid with
        | some nm => [(nm, .funcInstall iid)]
        | none => []  -- "Installer not found" warning
    | some "chocolatey" =>
      [("Install " ++ pyStr t.name,
        .bundledInstall .choco tid (if wantsShortcut t.desktop_group then some tid else none))]
    | some "powershell" =>
      [("Install " ++ pyStr t.name,
        .bundledInstall .powershell tid (if wantsShortcut t.desktop_group then some tid else none))]
    | _ => []       -- no branch of the if/elif chain matches; nothing appended

/-- `SetupOrchestrator.build_steps_from_selection` (orchestrator.py lines
32–121): two fixed leading steps, then the loop over selected ids. -/
def build_steps_from_selection (cats : List Category) (reg : Registry)
    (selected : List String) : List Step :=
  [("Assert Windows/Admin", .assertWinAdmin), (prepStepName, .prepGroups)]
    ++ selected.foldl (fun acc tid => acc ++ stepsForTool cats reg tid) []

/-- Outcome of one Python call: a returned value or a raised exception. -/
inductive PyResult (α : Type)
  | ok (a : α)
  | raises (msg : String)
deriving Repr, DecidableEq

/-- `_do_install_and_shortcut` / `_do_ps_and_shortcut` (orchestrator.py lines
72–79 and 111–117): run the primary installer — its boolean result is
discarded and its exception propagates — then, when a shortcut installer is
bundled, run it inside `try/except: pass`, so any shortcut outcome is
swallowed. -/
def runBundledStep (primary : PyResult Bool) (shortcut : Option (PyResult Bool)) :
    PyResult Unit :=
  match primary with
  | .raises m => .raises m
  | .ok _ =>
    match shortcut with
    | none => .ok ()
    | some _ => .ok ()

/-- Erase the `post_install` data everywhere in a category list. -/
def Item.clearPost (it : Item) : Item := { it with post_install := [] }

def Category.clearPost (c : Category) : Category :=
  { c with items := match c.items with
      | some (.ofList l) => some (.ofList (l.map Item.clearPost))
      | x => x }

/-- The registry contents set up by the `@register_installer` decorators of
`functions.py`, restricted to the installers whose constructor
`get_installer` can actually call (signature `(config, logger, args)`); the
value is the instance's `get_name()`. -/
def regStd : Registry := fun iid =>
  match iid with
  | "prepare_desktop_groups" => some "Prepare Desktop category folders"
  | "network_check" => some "Network connectivity"
  | "ensure_choco" => some "Ensure Chocolatey"
  | "upgrade_pip" => some "Upgrade pip/setuptools/wheel"
  | "install_wallpaper" => some "Copy and apply wallpaper"
  | "set_appearance" => some "Apply Windows appearance (Dark Mode)"
  | "organize_desktop" => some "Organize Desktop shortcuts"
  | _ => none

/-- A chocolatey tool carrying a `post_install` pin target. -/
def itT1 : Item :=
  { id := some "t1", name := some "Tool One", installer_type := some "chocolatey",
    package_name := some "p1", post_install := ["C:\\Tools\\x.exe"] }

/-- A function tool with a non-"runtimes" `desktop_group`. -/
def itF1 : Item :=
  { id := some "f1", name := some "Wall Tool", installer_type := some "function",
    installer := some "install_wallpaper", desktop_group := some "Tools" }

/-- A function tool whose installer id is not registered. -/
def itG1 : Item :=
  { id := some "g1", name := some "Ghost", installer_type := some "function",
    installer := some "not_registered" }

def cfgC2 : List Category :=
  [{ hasId := true, hasName := true, items := some (.ofList [itT1, itF1, itG1]) }]

/-- C2 (counterexample): on `cfgC2`, (i) tool `t1` carries one `post_install`
pin target, yet building steps for the selection `["t1"]` yields only the
two fixed steps plus `t1`'s single primary step — no pin step is ever
appended (the orchestrator never reads `post_install`); (ii) function tool
`f1` has the non-"runtimes" desktop group `"Tools"`, yet its step carries no
bundled shortcut action; (iii) `g1` is found in the catalog but contributes
zero primary steps because its installer id is unregistered. -/
theorem build_steps_pin_and_bundle_cex :
    itT1.post_install = ["C:\\Tools\\x.exe"] ∧
    get_tool_by_id cfgC2 "t1" = some itT1 ∧
    (build_steps_from_selection cfgC2 regStd ["t1"]).length = 3 ∧
    get_tool_by_id cfgC2 "f1" = some itF1 ∧
    wantsShortcut itF1.desktop_group = true ∧
    stepsForTool cfgC2 regStd "f1" =
      [("Copy and apply wallpaper", .funcInstall "install_wallpaper")] ∧
    get_tool_by_id cfgC2 "g1" = some itG1 ∧
    stepsForTool cfgC2 regStd "g1" = [] := by
  decide

theorem itemsList_clearPost (c : Category) :
    (Category.clearPost c).itemsList = c.itemsList.map Item.clearPost := by
  cases hc : c.items with
  | none => simp [Category.clearPost, Category.itemsList, hc]
  | some f => cases f <;> simp [Category.clearPost, Category.itemsList, hc]

theorem get_tool_by_id_clearPost (cats : List Category) (tid : String) :
    get_tool_by_id (cats.map Category.clearPost) tid
      = (get_tool_by_id cats tid).map Item.clearPost := by
  unfold get_tool_by_id
  rw [List.map_map]
  have hcomp : Category.itemsList ∘ Category.clearPost
      = (fun l => l.map Item.clearPost) ∘ Category.itemsList :=
    funext fun c => itemsList_clearPost c
  rw [hcomp, ← List.map_map, ← List.map_flatten, List.find?_map]
  rfl

theorem get_function_installer_id_clearPost (cats : List Category) (tid : String) :
    get_function_installer_id (cats.map Category.clearPost) tid
      = get_function_installer_id cats tid := by
  unfold get_function_installer_id
  rw [get_tool_by_id_clearPost]
  cases get_tool_by_id cats tid <;> rfl

theorem stepsForTool_clearPost (cats : List Category) (reg : Registry) (tid : String) :
    stepsForTool (cats.map Category.clearPost) reg tid = stepsForTool cats reg tid := by
  unfold stepsForTool
  rw [get_tool_by_id_clearPost, get_function_installer_id_clearPost]
  cases get_tool_by_id cats tid <;> rfl

theorem foldl_append_steps (f : String → List Step) (sel : List String) :
    ∀ init : List Step,
      sel.foldl (fun acc tid => acc ++ f tid) init = init ++ (sel.map f).flatten := by
  induction sel with
  | nil => intro init; simp
  | cons x rest ih => intro init; simp [ih, List.append_assoc]

/-- C2 (amended): for every selected tool found in the catalog with
installer type `chocolatey` or `powershell`, exactly one primary step is
produced, and a shortcut-creation action is bundled into that same step
exactly when the tool's `desktop_group` is truthy and not "runtimes"
(function-type tools never get a bundled shortcut); a bundled shortcut
failure never fails the step; no selected id ever contributes more than one
step; and the manifest's `post_install` data is ignored entirely — erasing
it changes nothing about the built steps. -/
theorem step_expansion_per_tool :
    (∀ (cats : List Category) (reg : Registry) (tid : String) (t : Item),
      get_tool_by_id cats tid = some t →
      (t.installer_type = some "chocolatey" ∨ t.installer_type = some "powershell") →
      ∃ k, stepsForTool cats reg tid =
        [("Install " ++ pyStr t.name,
          .bundledInstall k tid (if wantsShortcut t.desktop_group then some tid else none))]) ∧
    (∀ (cats : List Category) (reg : Registry) (tid : String),
      (stepsForTool cats reg tid).length ≤ 1) ∧
    (∀ (p : PyResult Bool) (m : String),
      runBundledStep p (some (.raises m)) = runBundledStep p none) ∧
    (∀ (cats : List Category) (reg : Registry) (sel : List String),
      build_steps_from_selection (cats.map Category.clearPost) reg sel
        = build_steps_from_selection cats reg sel) := by
  refine ⟨?_, ?_, ?_, ?_⟩
  · intro cats reg tid t h h2
    rcases h2 with hc | hp
    · exact ⟨.choco, by unfold stepsForTool; rw [h]; dsimp only; rw [hc]; rfl⟩
    · exact ⟨.powershell, by unfold stepsForTool; rw [h]; dsimp only; rw [hp]; rfl⟩
  · intro cats reg tid
    unfold stepsForTool
    repeat' split
    all_goals simp
  · intro p m
    cases p <;> rfl
  · intro cats reg sel
    unfold build_steps_from_selection
    simp only [stepsForTool_clearPost]

/-- C2 (witness): the amended theorem applied to the concrete catalog
`cfgC2`: tool `t1` (chocolatey, no desktop group) expands to one bundled
step without a shortcut, and a run with a raising shortcut equals a run
without one. -/
theorem step_expansion_per_tool_witness :
    (∃ k, stepsForTool cfgC2 regStd "t1" =
      [("Install " ++ pyStr itT1.name,
        .bundledInstall k "t1"
          (if wantsShortcut itT1.desktop_group then some "t1" else none))]) ∧
    runBundledStep (.ok true) (some (.raises "boom")) = runBundledStep (.ok true) none :=
  ⟨step_expansion_per_tool.1 cfgC2 regStd "t1" itT1 (by decide) (Or.inl (by decide)),
   step_expansion_per_tool.2.2.1 (.ok true) "boom"⟩

/-- C9: every built step list starts with the fixed 'Assert Windows/Admin'
step followed by the prepare-desktop-groups step (hence has at least two
steps), and an id absent from the catalog contributes no step — removing it
from the selection leaves the result unchanged. -/
theorem build_steps_fixed_steps :
    (∀ (cats : List Category) (reg : Registry) (sel : List String),
      2 ≤ (build_steps_from_selection cats reg sel).length ∧
      (build_steps_from_selection cats reg sel).take 2 =
        [("Assert Windows/Admin", .assertWinAdmin), (prepStepName, .prepGroups)]) ∧
    (∀ (cats : List Category) (reg : Registry) (xs ys : List String) (bad : String),
      get_tool_by_id cats bad = none →
      build_steps_from_selection cats reg (xs ++ bad :: ys)
        = build_steps_from_selection cats reg (xs ++ ys)) := by
  constructor
  · intro cats reg sel
    constructor
    · unfold build_steps_from_selection
      simp
    · rfl
  · intro cats reg xs ys bad h
    have hbad : stepsForTool cats reg bad = [] := by
      unfold stepsForTool; rw [h]
    unfold build_steps_from_selection
    rw [foldl_append_steps, foldl_append_steps]
    simp [hbad]

/-- C9 (witness): the theorem applied at the concrete catalog `cfgC2` and
the unknown id "zzz". -/
theorem build_steps_fixed_steps_witness :
    2 ≤ (build_steps_from_selection cfgC2 regStd []).length ∧
    build_steps_from_selection cfgC2 regStd (["zzz"] ++ ["t1"])
      = build_steps_from_selection cfgC2 regStd ([] ++ ["t1"]) :=
  ⟨(build_steps_fixed_steps.1 cfgC2 regStd []).1,
   build_steps_fixed_steps.2 cfgC2 regStd [] ["t1"] "zzz" (by decide)⟩

/-! ## C3: `CreateShortcutInstaller.install` (functions.py lines 477–503) -/

/-- The Python exception classes the embedding needs. -/
inductive PyExc
  | attributeError
  | fileExistsError
deriving Repr, DecidableEq

/-- `CreateShortcutInstaller.install` (functions.py lines 477–503) up to the
point where it is decided.  For a tool with a truthy, non-"runtimes"
`desktop_group` the method reaches line 503,
`meta = self.config.get_shortcut_meta(self.tool_id)`, but the `Config`
class of `src/holmes_vm/core/config.py` defines no method
`get_shortcut_meta`, so Python attribute lookup raises `AttributeError`
there — uncaught inside `install`. -/
def createShortcutInstall (cats : List Category) (toolId : String) : Except PyExc Bool :=
  match get_tool_by_id cats toolId with
  | none => .ok false        -- "Tool config not found" warning, `return False`
  | some t =>
    if truthy t.desktop_group && strLower (t.desktop_group.getD "") == "runtimes" then
      .ok true               -- runtimes: skip shortcut creation entirely
    else if !truthy t.desktop_group then
      .ok true               -- no desktop group means no shortcut needed
    else
      .error .attributeError -- line 503: `Config.get_shortcut_meta` does not exist

/-- A chocolatey tool with desktop group "Network". -/
def itNet1 : Item :=
  { id := some "net1", name := some "Netcat", installer_type := some "chocolatey",
    package_name := some "nc", desktop_group := some "Network" }

def cfgC3 : List Category :=
  [{ hasId := true, hasName := true, items := some (.ofList [itNet1]) }]

/-- C3: evaluating `CreateShortcutInstaller.install` at the failing input — a
tool present in the catalog whose `desktop_group` is "Network" — raises
`AttributeError` instead of returning a boolean, contradicting the
never-raises contract. -/
theorem create_shortcut_install_raises :
    get_tool_by_id cfgC3 "net1" = some itNet1 ∧
    itNet1.desktop_group = some "Network" ∧
    createShortcutInstall cfgC3 "net1" = .error .attributeError := by
  refine ⟨by decide, rfl, ?_⟩
  rfl

/-! ## Step runner (`SetupOrchestrator.run_steps`, orchestrator.py lines 130–167) -/

/-- The observable events of one run: UI queue messages (`ui.enqueue`),
log lines, and the ETA update (`ui.set_eta`, whose wall-clock value is
external to the embedding). -/
inductive Event
  | stepHdr (i total : Nat) (name : String)
  | status (s : String)
  | progressTo (p : Nat)
  | logInfo (m : String)
  | logSuccess (m : String)
  | logError (m : String)
  | logWarn (m : String)
  | stepResult (i : Nat) (ok : Bool)
  | setEta
deriving Repr, DecidableEq

def PyResult.isOk {α : Type} : PyResult α → Bool
  | .ok _ => true
  | .raises _ => false

def cancelMsg : String := "Cancelled by user before next step."

/-- The body of one loop iteration of `run_steps` for 1-based step index `i`
(orchestrator.py lines 140–165): header, status, progress target
`int((i-1)*100/total)`, the step's info log, then the `try/except` around
the action — success log or error log, never a propagated exception — the
step-result event, the ETA update and the progress target
`int(i*100/total)`.  Python's `int(x)` on the non-negative float quotient
truncates, i.e. floor division. -/
def stepEvents (i total : Nat) (name : String) (act : PyResult Unit) : List Event :=
  [.stepHdr i total name, .status "Working", .progressTo ((i - 1) * 100 / total),
   .logInfo name] ++
  (match act with
   | .ok _ => [.logSuccess (name ++ " completed.")]
   | .raises e => [.logError (name ++ " failed: " ++ e)]) ++
  [.stepResult i act.isOk, .setEta, .progressTo (i * 100 / total)]

/-- The `for i, (name, action) in enumerate(steps, start=1)` loop of
`run_steps`.  `cancel i` is the value `cancel_event.is_set()` returns at the
boundary check before step `i` — the only place the loop consults it. -/
def runStepsFrom (total : Nat) (cancel : Nat → Bool) : Nat → List (String × PyResult Unit) → List Event
  | _, [] => []
  | i, (name, act) :: rest =>
    if cancel i then [.logWarn cancelMsg]
    else stepEvents i total name act ++ runStepsFrom total cancel (i + 1) rest

/-- `SetupOrchestrator.run_steps` with a UI attached: the emitted event
sequence.  Each step's action is summarised by its outcome (`ok` or
`raises`), which is all the runner observes of it. -/
def run_steps (steps : List (String × PyResult Unit)) (cancel : Nat → Bool) : List Event :=
  runStepsFrom steps.length cancel 1 steps

/-- The per-step result ledger: the `('step_result', i, success)` events in
order. -/
def stepResults : List Event → List (Nat × Bool) :=
  List.filterMap fun e => match e with
    | .stepResult i ok => some (i, ok)
    | _ => none

/-- The ERROR log lines in order. -/
def errorLogs : List Event → List String :=
  List.filterMap fun e => match e with
    | .logError m => some m
    | _ => none

/-- Number of WARN log lines. -/
def warnCount (evs : List Event) : Nat :=
  evs.countP fun e => match e with
    | .logWarn _ => true
    | _ => false

/-- The progress-target values in emission order. -/
def progressValues : List Event → List Nat :=
  List.filterMap fun e => match e with
    | .progressTo p => some p
    | _ => none

theorem stepResults_stepEvents (i total : Nat) (name : String) (act : PyResult Unit) :
    stepResults (stepEvents i total name act) = [(i, act.isOk)] := by
  cases act <;> rfl

theorem errorLogs_stepEvents (i total : Nat) (name : String) (act : PyResult Unit) :
    errorLogs (stepEvents i total name act) =
      (match act with
       | .ok _ => []
       | .raises e => [name ++ " failed: " ++ e]) := by
  cases act <;> rfl

theorem stepResults_append (l₁ l₂ : List Event) :
    stepResults (l₁ ++ l₂) = stepResults l₁ ++ stepResults l₂ :=
  List.filterMap_append ..

theorem errorLogs_append (l₁ l₂ : List Event) :
    errorLogs (l₁ ++ l₂) = errorLogs l₁ ++ errorLogs l₂ :=
  List.filterMap_append ..

theorem stepResults_from (total : Nat) (steps : List (String × PyResult Unit)) :
    ∀ i : Nat, stepResults (runStepsFrom total (fun _ => false) i steps)
      = (steps.enumFrom i).map (fun p => (p.1, p.2.2.isOk)) := by
  induction steps with
  | nil => intro i; rfl
  | cons s rest ih =>
    intro i
    obtain ⟨name, act⟩ := s
    simp only [runStepsFrom, if_neg (by simp : ¬ false = true), stepResults_append,
      stepResults_stepEvents, ih (i + 1), List.enumFrom, List.map_cons]
    rfl

theorem errorLogs_from (total : Nat) (steps : List (String × PyResult Unit)) :
    ∀ i : Nat, errorLogs (runStepsFrom total (fun _ => false) i steps)
      = steps.filterMap (fun s => match s.2 with
          | .ok _ => none
          | .raises e => some (s.1 ++ " failed: " ++ e)) := by
  induction steps with
  | nil => intro i; rfl
  | cons s rest ih =>
    intro i
    obtain ⟨name, act⟩ := s
    simp only [runStepsFrom, if_neg (by simp : ¬ false = true), errorLogs_append,
      errorLogs_stepEvents, ih (i + 1), List.filterMap_cons]
    cases act <;> rfl

/-- C4: continue-on-error.  In a run without cancellation the per-step
ledger has exactly one entry per step, in order, recording that step's own
action outcome (failure exactly where the action raised, success elsewhere)
— so a raising step k never prevents steps k+1..N from executing — and the
ERROR log lines are exactly one `"<name> failed: <msg>"` line per raising
step. -/
theorem run_steps_continue_on_error (steps : List (String × PyResult Unit)) :
    stepResults (run_steps steps (fun _ => false))
      = (steps.enumFrom 1).map (fun p => (p.1, p.2.2.isOk)) ∧
    errorLogs (run_steps steps (fun _ => false))
      = steps.filterMap (fun s => match s.2 with
          | .ok _ => none
          | .raises e => some (s.1 ++ " failed: " ++ e)) :=
  ⟨stepResults_from steps.length steps 1, errorLogs_from steps.length steps 1⟩

theorem runStepsFrom_cancel_free (total : Nat) (steps : List (String × PyResult Unit)) :
    ∀ (i : Nat) (cancel : Nat → Bool),
      (∀ j, i ≤ j → j < i + steps.length → cancel j = false) →
      runStepsFrom total cancel i steps = runStepsFrom total (fun _ => false) i steps := by
  induction steps with
  | nil => intro i cancel _; rfl
  | cons s rest ih =>
    intro i cancel h
    obtain ⟨name, act⟩ := s
    have hi : cancel i = false := h i le_rfl (by simp)
    simp only [runStepsFrom, hi, if_neg (by simp : ¬ false = true)]
    rw [ih (i + 1) cancel (fun j h1 h2 => h j (by omega) (by simp at h2 ⊢; omega))]

theorem warnCount_append (l₁ l₂ : List Event) :
    warnCount (l₁ ++ l₂) = warnCount l₁ + warnCount l₂ :=
  List.countP_append ..

theorem warnCount_stepEvents (i total : Nat) (name : String) (act : PyResult Unit) :
    warnCount (stepEvents i total name act) = 0 := by
  cases act <;> rfl

theorem warnCount_from_zero (total : Nat) (steps : List (String × PyResult Unit)) :
    ∀ i : Nat, warnCount (runStepsFrom total (fun _ => false) i steps) = 0 := by
  induction steps with
  | nil => intro i; rfl
  | cons s rest ih =>
    intro i
    obtain ⟨name, act⟩ := s
    simp only [runStepsFrom, if_neg (by simp : ¬ false = true), warnCount_append,
      warnCount_stepEvents, ih (i + 1)]

theorem runStepsFrom_cancel_at (steps : List (String × PyResult Unit)) :
    ∀ (k i total : Nat) (cancel : Nat → Bool),
      k < steps.length →
      (∀ j, i ≤ j → j < i + k → cancel j = false) →
      cancel (i + k) = true →
      runStepsFrom total cancel i steps
        = runStepsFrom total (fun _ => false) i (steps.take k) ++ [.logWarn cancelMsg] := by
  induction steps with
  | nil => intro k i total cancel hk; exact absurd hk (by simp)
  | cons s rest ih =>
    intro k i total cancel hk hpre hset
    obtain ⟨name, act⟩ := s
    match k with
    | 0 =>
      have : cancel i = true := by simpa using hset
      simp [runStepsFrom, this]
    | k + 1 =>
      have hi : cancel i = false := hpre i le_rfl (by omega)
      have hset' : cancel (i + 1 + k) = true := by
        have : i + 1 + k = i + (k + 1) := by omega
        rw [this]; exact hset
      simp only [List.take_succ_cons, runStepsFrom, hi,
        if_neg (by simp : ¬ false = true)]
      rw [ih k (i + 1) total cancel (by simpa using hk)
        (fun j h1 h2 => hpre j (by omega) (by omega)) hset', List.append_assoc]

/-- C5: cooperative cancellation at step boundaries.  If the cancellation
flag reads false at the boundary checks before steps 1..k and true at the
check before step k+1 (k < N), the run's events are exactly the events of
the first k steps of an uncancelled run followed by a single warning —
steps k+1..N never execute, step k's own events are unaffected, and exactly
one warning is logged.  Moreover, only the boundary reads of the flag
matter: a flag that reads false at every boundary yields exactly the
uncancelled run, whatever its value at any other time. -/
theorem run_steps_cancel_boundary :
    (∀ (steps : List (String × PyResult Unit)) (cancel : Nat → Bool) (k : Nat),
      k < steps.length →
      (∀ j, 1 ≤ j → j ≤ k → cancel j = false) →
      cancel (k + 1) = true →
      run_steps steps cancel
        = runStepsFrom steps.length (fun _ => false) 1 (steps.take k) ++ [.logWarn cancelMsg] ∧
      warnCount (run_steps steps cancel) = 1) ∧
    (∀ (steps : List (String × PyResult Unit)) (cancel : Nat → Bool),
      (∀ j, 1 ≤ j → j ≤ steps.length → cancel j = false) →
      run_steps steps cancel = run_steps steps (fun _ => false)) := by
  constructor
  · intro steps cancel k hk hpre hset
    have heq := runStepsFrom_cancel_at steps k 1 steps.length cancel hk
      (fun j h1 h2 => hpre j h1 (by omega)) (by rw [Nat.add_comm]; exact hset)
    refine ⟨heq, ?_⟩
    rw [run_steps, heq, warnCount_append, warnCount_from_zero]
    rfl
  · intro steps cancel h
    exact runStepsFrom_cancel_free steps.length steps 1 cancel
      (fun j h1 h2 => h j h1 (by omega))

/-- Three successful steps. -/
def steps3 : List (String × PyResult Unit) :=
  [("a", .ok ()), ("b", .ok ()), ("c", .ok ())]

/-- A flag that becomes set after the first step completes. -/
def cancelAfter1 : Nat → Bool := fun j => decide (2 ≤ j)

/-- C5 (witness): the boundary theorem applied to a concrete three-step run
whose flag becomes set after step 1. -/
theorem run_steps_cancel_boundary_witness :
    run_steps steps3 cancelAfter1
      = runStepsFrom steps3.length (fun _ => false) 1 (steps3.take 1) ++ [.logWarn cancelMsg] ∧
    warnCount (run_steps steps3 cancelAfter1) = 1 :=
  run_steps_cancel_boundary.1 steps3 cancelAfter1 1 (by decide)
    (by intro j h1 h2; simp only [cancelAfter1, decide_eq_false_iff_not]; omega)
    (by decide)

/-! ## C6: progress values -/

/-- The progress targets a cancel-free run emits: per step `i`,
`int((i-1)*100/total)` then `int(i*100/total)`. -/
def progList (total : Nat) : Nat → List (String × PyResult Unit) → List Nat
  | _, [] => []
  | i, _ :: rest => (i - 1) * 100 / total :: i * 100 / total :: progList total (i + 1) rest

theorem progressValues_append (l₁ l₂ : List Event) :
    progressValues (l₁ ++ l₂) = progressValues l₁ ++ progressValues l₂ :=
  List.filterMap_append ..

theorem progressValues_stepEvents (i total : Nat) (name : String) (act : PyResult Unit) :
    progressValues (stepEvents i total name act) = [(i - 1) * 100 / total, i * 100 / total] := by
  cases act <;> rfl

theorem progressValues_from (total : Nat) (steps : List (String × PyResult Unit)) :
    ∀ i : Nat, progressValues (runStepsFrom total (fun _ => false) i steps)
      = progList total i steps := by
  induction steps with
  | nil => intro i; rfl
  | cons s rest ih =>
    intro i
    obtain ⟨name, act⟩ := s
    simp only [runStepsFrom, if_neg (by simp : ¬ false = true), progressValues_append,
      progressValues_stepEvents, ih (i + 1), progList]
    rfl

theorem progList_chain (total : Nat) (steps : List (String × PyResult Unit)) :
    ∀ i : Nat, 1 ≤ i → List.Chain' (· ≤ ·) (progList total i steps) := by
  induction steps with
  | nil => intro i _; simp [progList]
  | cons s rest ih =>
    intro i hi
    have h1 : (i - 1) * 100 / total ≤ i * 100 / total :=
      Nat.div_le_div_right (Nat.mul_le_mul_right _ (by omega))
    match rest with
    | [] => simpa [progList] using h1
    | s' :: rest' =>
      have hch := ih (i + 1) (by omega)
      rw [progList] at hch ⊢
      rw [progList]
      refine List.chain'_cons.2 ⟨h1, List.chain'_cons.2 ⟨?_, hch⟩⟩
      simp

theorem progList_bounded (total : Nat) (steps : List (String × PyResult Unit)) :
    ∀ i : Nat, i + steps.length ≤ total + 1 →
      ∀ p ∈ progList total i steps, p ≤ 100 := by
  induction steps with
  | nil => intro i _ p hp; simp [progList] at hp
  | cons s rest ih =>
    intro i hlen p hp
    have hbound : ∀ j : Nat, j ≤ total → j * 100 / total ≤ 100 := by
      intro j hj
      match total with
      | 0 => simp
      | t + 1 =>
        calc j * 100 / (t + 1) ≤ (t + 1) * 100 / (t + 1) :=
              Nat.div_le_div_right (Nat.mul_le_mul_right _ hj)
          _ = 100 := by rw [Nat.mul_comm]; exact Nat.mul_div_cancel _ (by omega)
    rw [progList] at hp
    simp only [List.mem_cons] at hp
    rcases hp with rfl | rfl | hp
    · exact hbound _ (by simp at hlen; omega)
    · exact hbound _ (by simp at hlen; omega)
    · exact ih (i + 1) (by simp at hlen ⊢; omega) p hp

/-- Scan past the `('step_result', i, _)` event for step `i`. -/
def afterStepResult (i : Nat) : List Event → Option (List Event)
  | [] => none
  | e :: rest =>
    match e with
    | .stepResult j _ => if j = i then some rest else afterStepResult i rest
    | _ => afterStepResult i rest

/-- First progress target in an event list. -/
def firstProgress : List Event → Option Nat
  | [] => none
  | e :: rest =>
    match e with
    | .progressTo p => some p
    | _ => firstProgress rest

/-- The progress value emitted immediately after step `i`'s result event. -/
def progressAfterStep (evs : List Event) (i : Nat) : Option Nat :=
  (afterStepResult i evs).bind firstProgress

theorem afterStepResult_stepEvents_ne (i j total : Nat) (name : String)
    (act : PyResult Unit) (tail : List Event) (h : i ≠ j) :
    afterStepResult j (stepEvents i total name act ++ tail) = afterStepResult j tail := by
  cases act <;> simp [stepEvents, afterStepResult, h]

theorem afterStepResult_stepEvents_eq (i total : Nat) (name : String)
    (act : PyResult Unit) (tail : List Event) :
    afterStepResult i (stepEvents i total name act ++ tail)
      = some ([.setEta, .progressTo (i * 100 / total)] ++ tail) := by
  cases act <;> simp [stepEvents, afterStepResult]

theorem progressAfterStep_from (total : Nat) (steps : List (String × PyResult Unit)) :
    ∀ i j : Nat, i ≤ j → j < i + steps.length →
      progressAfterStep (runStepsFrom total (fun _ => false) i steps) j
        = some (j * 100 / total) := by
  induction steps with
  | nil => intro i j h1 h2; simp at h2; omega
  | cons s rest ih =>
    intro i j h1 h2
    obtain ⟨name, act⟩ := s
    rw [runStepsFrom, if_neg (by simp : ¬ false = true)]
    rcases Nat.eq_or_lt_of_le h1 with rfl | hlt
    · rw [progressAfterStep, afterStepResult_stepEvents_eq]
      rfl
    · rw [progressAfterStep, afterStepResult_stepEvents_ne _ _ _ _ _ _ (by omega)]
      exact ih (i + 1) j (by omega) (by simp at h2 ⊢; omega)

/-- C6 (amended): over one cancel-free run the emitted progress values are
non-decreasing and bounded by 100, and the value emitted immediately after
step i completes equals `int(i*100/total)` — floor, not `round`: Python's
`int()` truncates the quotient. -/
theorem run_steps_progress_floor (steps : List (String × PyResult Unit)) :
    List.Chain' (· ≤ ·) (progressValues (run_steps steps (fun _ => false))) ∧
    (∀ p ∈ progressValues (run_steps steps (fun _ => false)), p ≤ 100) ∧
    (∀ i, 1 ≤ i → i ≤ steps.length →
      progressAfterStep (run_steps steps (fun _ => false)) i
        = some (i * 100 / steps.length)) := by
  refine ⟨?_, ?_, ?_⟩
  · rw [run_steps, progressValues_from]
    exact progList_chain steps.length steps 1 le_rfl
  · rw [run_steps, progressValues_from]
    exact progList_bounded steps.length steps 1 (by omega)
  · intro i h1 h2
    exact progressAfterStep_from steps.length steps 1 i h1 (by omega)

/-- C6 (witness): the amended theorem applied to the concrete three-step
run at step 3. -/
theorem run_steps_progress_floor_witness :
    progressAfterStep (run_steps steps3 (fun _ => false)) 3
      = some (3 * 100 / steps3.length) :=
  (run_steps_progress_floor steps3).2.2 3 (by decide) (by decide)

/-- Nearest-integer rounding of `num/den` with ties away from zero.  The
claim's `round(i/total*100)`; at the counterexample input 200/3 the quotient
is not a tie, so every rounding convention (including Python's
round-half-to-even) gives the same value. -/
def specRound (num den : Nat) : Nat := (2 * num + den) / (2 * den)

/-- C6 (counterexample): in a run of 3 steps, the progress value emitted
immediately after step 2 is `int(2*100/3) = 66`, while the claim's
`round(2/3*100)` is 67. -/
theorem run_steps_progress_round_cex :
    progressAfterStep (run_steps steps3 (fun _ => false)) 2 = some 66 ∧
    specRound (2 * 100) 3 = 67 ∧ (66 : Nat) ≠ 67 := by
  refine ⟨by decide, by decide, by decide⟩

/-! ## C7: desktop-grouping token scoring
(`OrganizeDesktopInstaller._derive_tokens` / `_pick_group_for_entry`,
functions.py lines 258–317) -/

/-- `needle` matches at the head of `hay` (character-wise). -/
def startsWithChars : List Char → List Char → Bool
  | _, [] => true
  | [], _ :: _ => false
  | b :: bs, a :: as => a == b && startsWithChars bs as

/-- Python substring containment `needle in hay` on character lists. -/
def substrIn (needle : List Char) : List Char → Bool
  | [] => needle.isEmpty
  | c :: rest => startsWithChars (c :: rest) needle || substrIn needle rest

/-- Python `tok in name` for strings. -/
def strContains (hay needle : String) : Bool := substrIn needle.data hay.data

/-- `sum(len(tok) for tok in tokens if tok in name)` (functions.py line 310). -/
def scoreOf (name : String) (tokens : List String) : Nat :=
  ((tokens.filter (fun tok => strContains name tok)).map String.length).sum

/-- The `for group, tokens in group_tokens` loop of `_pick_group_for_entry`
(functions.py lines 307–313), carrying `(best_group, best_score)`. -/
def pickLoop (name : String) : List (String × List String) → Option String × Nat → Option String × Nat
  | [], acc => acc
  | (group, tokens) :: rest, (bg, bs) =>
    if tokens.isEmpty then pickLoop name rest (bg, bs)
    else
      let score := scoreOf name tokens
      if bs < score then pickLoop name rest (some group, score)
      else pickLoop name rest (bg, bs)

/-- `OrganizeDesktopInstaller._pick_group_for_entry` (functions.py lines
303–317): strict-improvement argmax over the groups, then the fixed
threshold `if best_score < 4: return None`. -/
def pick_group_for_entry (entryName : String) (groupTokens : List (String × List String)) :
    Option String :=
  let name := strLower entryName
  let best := pickLoop name groupTokens (none, 0)
  if best.2 < 4 then none else best.1

/-- Specification-side maximum score over a group list. -/
def maxSc (name : String) : List (String × List String) → Nat
  | [] => 0
  | (_, toks) :: rest => max (scoreOf name toks) (maxSc name rest)

theorem scoreOf_nil (name : String) : scoreOf name [] = 0 := rfl

theorem pickLoop_eq (name : String) :
    ∀ (gs : List (String × List String)) (bg : Option String) (bs : Nat),
      pickLoop name gs (bg, bs) =
        (if bs < maxSc name gs
          then (gs.find? (fun g =>
              bs < scoreOf name g.2 && scoreOf name g.2 == maxSc name gs)).map Prod.fst
          else bg,
         max bs (maxSc name gs)) := by
  intro gs
  induction gs with
  | nil => intro bg bs; simp [pickLoop, maxSc]
  | cons g rest ih =>
    intro bg bs
    obtain ⟨gname, toks⟩ := g
    have hskip : toks.isEmpty = true → scoreOf name toks = 0 := by
      intro h
      rw [List.isEmpty_iff.1 h, scoreOf_nil]
    by_cases hs : bs < scoreOf name toks
    · -- the head strictly improves the running best
      have hne : toks.isEmpty = false := by
        cases he : toks.isEmpty
        · rfl
        · exact absurd hs (by rw [hskip he]; omega)
      rw [pickLoop, hne]
      simp only [Bool.false_eq_true, if_false, if_pos hs, ih]
      rw [maxSc]
      by_cases hm : scoreOf name toks < maxSc name rest
      · -- the rest still contains a strictly larger score
        rw [if_pos hm, if_pos (by omega), List.find?_cons]
        have hhead : (bs < scoreOf name toks && scoreOf name toks == max (scoreOf name toks) (maxSc name rest)) = false := by
          simp only [Bool.and_eq_false_iff, beq_eq_false_iff_ne]
          right; omega
        rw [hhead]
        have hmax : max (scoreOf name toks) (maxSc name rest) = maxSc name rest := by omega
        rw [hmax]
        have hpred : (fun g : String × List String =>
              scoreOf name toks < scoreOf name g.2 && scoreOf name g.2 == maxSc name rest)
            = (fun g : String × List String =>
              bs < scoreOf name g.2 && scoreOf name g.2 == maxSc name rest) := by
          funext g'
          by_cases hg : scoreOf name g'.2 = maxSc name rest
          · simp only [hg, beq_self_eq_true, Bool.and_true]
            have h1 : bs < maxSc name rest := by omega
            have h2 : scoreOf name toks < maxSc name rest := hm
            simp [h1, h2]
          · have hb : (scoreOf name g'.2 == maxSc name rest) = false :=
              beq_eq_false_iff_ne.2 hg
            rw [hb, Bool.and_false, Bool.and_false]
        rw [hpred]
        exact Prod.ext (by simp) (by omega)
      · -- the head attains the overall maximum
        have hmax : max (scoreOf name toks) (maxSc name rest) = scoreOf name toks := by omega
        rw [if_neg hm, if_pos (by omega), hmax, List.find?_cons]
        have hhead : (bs < scoreOf name toks && scoreOf name toks == scoreOf name toks) = true := by
          simp [hs]
        rw [hhead]
        exact Prod.ext (by simp) (by omega)
    · -- the head does not improve the running best
      have hstep : pickLoop name ((gname, toks) :: rest) (bg, bs) = pickLoop name rest (bg, bs) := by
        rw [pickLoop]
        cases he : toks.isEmpty
        · simp only [Bool.false_eq_true, if_false, if_neg hs]
        · simp
      rw [hstep, ih, maxSc]
      by_cases hm : bs < maxSc name rest
      · rw [if_pos hm, if_pos (by omega), List.find?_cons]
        have hmax : max (scoreOf name toks) (maxSc name rest) = maxSc name rest := by omega
        have hhead : (bs < scoreOf name toks && scoreOf name toks == max (scoreOf name toks) (maxSc name rest)) = false := by
          simp only [Bool.and_eq_false_iff]
          left
          simp only [decide_eq_false_iff_not]
          omega
        rw [hhead, hmax]
      · rw [if_neg hm, if_neg (by omega)]
        exact Prod.ext (by simp) (by omega)

theorem maxSc_attained (name : String) :
    ∀ gs : List (String × List String), 0 < maxSc name gs →
      ∃ g ∈ gs, scoreOf name g.2 = maxSc name gs := by
  intro gs
  induction gs with
  | nil => intro h; simp [maxSc] at h
  | cons g rest ih =>
    intro h
    obtain ⟨gname, toks⟩ := g
    rw [maxSc] at h ⊢
    by_cases hm : scoreOf name toks < maxSc name rest
    · obtain ⟨g', hg', hsc⟩ := ih (by omega)
      exact ⟨g', List.mem_cons_of_mem _ hg', by omega⟩
    · exact ⟨(gname, toks), List.mem_cons_self .., by simp; omega⟩

/-- The stop-word set of `_derive_tokens` (functions.py lines 265–269). -/
def stopwords : List String :=
  ["tool", "tools", "suite", "viewer", "view", "windows", "window",
   "analysis", "forensics", "forensic", "browser", "browsers",
   "bundle", "bundles", "runtime", "dependencies", "desktop"]

/-- Membership in `[a-z0-9]` (the characters the split keeps). -/
def isAlnumLower (c : Char) : Bool :=
  ('a' ≤ c && c ≤ 'z') || ('0' ≤ c && c ≤ '9')

/-- One left-to-right pass of `re.sub(r"\([^)]*\)", "", name)`.  In normal
mode (`none`) a '(' opens a buffered candidate match; in buffering mode
(`some buf`) the next ')' completes the match — '(' , buffer and ')' are all
deleted — while reaching the end of input without a ')' means the pattern
(which requires a closing paren) never matches from that '(' on, so the
buffered text is restored verbatim. -/
def remParGo : List Char → Option (List Char) → List Char
  | [], none => []
  | [], some buf => '(' :: buf.reverse
  | c :: rest, none =>
      if c = '(' then remParGo rest (some [])
      else c :: remParGo rest none
  | c :: rest, some buf =>
      if c = ')' then remParGo rest none
      else remParGo rest (some (c :: buf))

/-- `re.sub(r"\([^)]*\)", "", name)`: delete every '(' together with
everything up to and including the next ')'. -/
def dropParens (cs : List Char) : List Char := remParGo cs none

/-- `re.split(r"[^a-z0-9]+", name)`: the maximal runs of `[a-z0-9]`
characters, in order (the empty parts a `re.split` also yields are dropped;
they cannot pass the later length-≥-3 filter anyway). -/
def wordsGo : List Char → List Char → List (List Char)
  | [], acc => if acc.isEmpty then [] else [acc.reverse]
  | c :: rest, acc =>
    if isAlnumLower c then wordsGo rest (c :: acc)
    else if acc.isEmpty then wordsGo rest []
    else acc.reverse :: wordsGo rest []

def splitWords (cs : List Char) : List (List Char) := wordsGo cs []

/-- The `t and t not in seen` de-duplication loop of `_derive_tokens`
(functions.py lines 282–287), preserving first-seen order. -/
def dedupGo : List String → List String → List String
  | [], _seen => []
  | t :: rest, seen =>
    if !t.isEmpty && !(seen.contains t) then t :: dedupGo rest (t :: seen)
    else dedupGo rest seen

/-- `(item.get(k) or '')`. -/
def pyGetStr (o : Option String) : String := o.getD ""

/-- The token filter applied to every split part: length at least 3 and not
a stop word. -/
def keepToken (p : List Char) : Bool :=
  3 ≤ p.length && !(stopwords.contains (String.mk p))

/-- `OrganizeDesktopInstaller._derive_tokens` (functions.py lines 258–288):
explicit `desktop_keywords` (lower-cased, non-empty) win outright;
otherwise tokens are derived from the display name (parenthesized segments
stripped, split on non-alphanumerics, length/stop-word filtered), the id is
tokenized the same way, and the result is de-duplicated preserving order. -/
def _derive_tokens (it : Item) : List String :=
  if !it.desktop_keywords.isEmpty then
    (it.desktop_keywords.filter (fun k => !k.isEmpty)).map strLower
  else
    let name := strLower (pyGetStr it.name)
    let parts := splitWords (dropParens name.data)
    let tokens := (parts.filter keepToken).map String.mk
    let iid := strLower (pyGetStr it.id)
    let iidTokens := ((splitWords iid.data).filter keepToken).map String.mk
    dedupGo (tokens ++ iidTokens) []

theorem dedupGo_subset (t : String) :
    ∀ (l seen : List String), t ∈ dedupGo l seen → t ∈ l := by
  intro l
  induction l with
  | nil => intro seen h; simp [dedupGo] at h
  | cons x rest ih =>
    intro seen h
    rw [dedupGo] at h
    by_cases hc : (!x.isEmpty && !(seen.contains x)) = true
    · rw [if_pos hc] at h
      rcases List.mem_cons.1 h with rfl | h'
      · exact List.mem_cons_self ..
      · exact List.mem_cons_of_mem _ (ih _ h')
    · rw [if_neg hc] at h
      exact List.mem_cons_of_mem _ (ih _ h)

/-- C7: (a) whenever the maximal token-overlap score over the groups
reaches the threshold 4, the chosen group is the *first* group attaining
that maximum — the strictly highest score wins and, on a tie, the earliest
group in iteration order is kept; (b) no group is chosen exactly when the
best score is below 4; (c) every token derived (in the absence of explicit
keywords) has length at least 3 and is not a stop word. -/
theorem pick_group_for_entry_spec :
    (∀ (entry : String) (gs : List (String × List String)),
      (pick_group_for_entry entry gs = none ↔ maxSc (strLower entry) gs < 4) ∧
      (4 ≤ maxSc (strLower entry) gs →
        pick_group_for_entry entry gs
          = (gs.find? (fun g =>
              scoreOf (strLower entry) g.2 == maxSc (strLower entry) gs)).map Prod.fst)) ∧
    (∀ it : Item, it.desktop_keywords = [] →
      ∀ t ∈ _derive_tokens it, 3 ≤ t.length ∧ t ∉ stopwords) := by
  constructor
  · intro entry gs
    have hbody : pick_group_for_entry entry gs
        = (if (pickLoop (strLower entry) gs (none, 0)).2 < 4 then none
           else (pickLoop (strLower entry) gs (none, 0)).1) := rfl
    rw [pickLoop_eq (strLower entry) gs none 0] at hbody
    dsimp only at hbody
    simp only [Nat.zero_max] at hbody
    have hfind : 4 ≤ maxSc (strLower entry) gs →
        pick_group_for_entry entry gs
          = (gs.find? (fun g =>
              scoreOf (strLower entry) g.2 == maxSc (strLower entry) gs)).map Prod.fst := by
      intro h4
      rw [hbody, if_neg (by omega), if_pos (by omega)]
      have hpred : (fun g : String × List String =>
            0 < scoreOf (strLower entry) g.2 &&
              scoreOf (strLower entry) g.2 == maxSc (strLower entry) gs)
          = (fun g : String × List String =>
            scoreOf (strLower entry) g.2 == maxSc (strLower entry) gs) := by
        funext g'
        by_cases hg : scoreOf (strLower entry) g'.2 = maxSc (strLower entry) gs
        · simp only [hg, beq_self_eq_true, Bool.and_true, decide_eq_true_eq]
          omega
        · have hb : (scoreOf (strLower entry) g'.2 == maxSc (strLower entry) gs) = false :=
            beq_eq_false_iff_ne.2 hg
          rw [hb, Bool.and_false]
      rw [hpred]
    refine ⟨⟨?_, ?_⟩, hfind⟩
    · intro hnone
      by_contra hge
      have h4 : 4 ≤ maxSc (strLower entry) gs := by omega
      rw [hfind h4] at hnone
      obtain ⟨g, hmem, hsc⟩ := maxSc_attained (strLower entry) gs (by omega)
      have hsome : (gs.find? (fun g =>
          scoreOf (strLower entry) g.2 == maxSc (strLower entry) gs)).isSome = true :=
        List.find?_isSome.2 ⟨g, hmem, by simp [hsc]⟩
      rcases hopt : gs.find? (fun g =>
          scoreOf (strLower entry) g.2 == maxSc (strLower entry) gs) with _ | g'
      · rw [hopt] at hsome; simp at hsome
      · rw [hopt] at hnone; simp at hnone
    · intro hlt
      rw [hbody, if_pos (by omega)]
  · intro it hkw t ht
    rw [_derive_tokens, if_neg (by simp [hkw])] at ht
    have ht' := dedupGo_subset t _ _ ht
    have hkeep : ∃ p : List Char, keepToken p = true ∧ t = String.mk p := by
      rcases List.mem_append.1 ht' with h | h
      · obtain ⟨p, hp, rfl⟩ := List.mem_map.1 h
        exact ⟨p, (List.mem_filter.1 hp).2, rfl⟩
      · obtain ⟨p, hp, rfl⟩ := List.mem_map.1 h
        exact ⟨p, (List.mem_filter.1 hp).2, rfl⟩
    obtain ⟨p, hp, rfl⟩ := hkeep
    rw [keepToken, Bool.and_eq_true] at hp
    constructor
    · exact of_decide_eq_true hp.1
    · intro hmem
      have hc : stopwords.contains (String.mk p) = true := by simpa using hmem
      rw [hc] at hp
      simp at hp

def demoGroups : List (String × List String) :=
  [("Network", ["wireshark"]), ("Editors", ["code"])]

def itDemo : Item := { id := some "regripper", name := some "RegRipper" }

/-- C7 (witness): the scoring theorem applied to the entry "Wireshark.lnk"
over two concrete groups (best score 9 ≥ 4), and the token property applied
to the derived token "regripper" of a keyword-less item. -/
theorem pick_group_for_entry_spec_witness :
    pick_group_for_entry "Wireshark.lnk" demoGroups
      = (demoGroups.find? (fun g =>
          scoreOf (strLower "Wireshark.lnk") g.2
            == maxSc (strLower "Wireshark.lnk") demoGroups)).map Prod.fst ∧
    (3 ≤ "regripper".length ∧ "regripper" ∉ stopwords) :=
  ⟨(pick_group_for_entry_spec.1 "Wireshark.lnk" demoGroups).2 (by decide),
   pick_group_for_entry_spec.2 itDemo rfl "regripper" (by decide)⟩

/-! ## C10: `OrganizeDesktopInstaller._safe_move` (functions.py lines 319–341) -/

/-- Index of the last '.' in a character list. -/
def lastDotIdx : List Char → Option Nat
  | [] => none
  | c :: rest =>
    match lastDotIdx rest with
    | some i => some (i + 1)
    | none => if c = '.' then some 0 else none

/-- `os.path.splitext` on a basename: split at the last dot, unless every
character before that dot is itself a dot (leading-dot names like
`.bashrc` keep their dot in the root). -/
def splitext (cs : List Char) : List Char × List Char :=
  match lastDotIdx cs with
  | none => (cs, [])
  | some i =>
    if (cs.take i).all (fun c => c = '.') then (cs, [])
    else (cs.take i, cs.drop i)

/-- `f"{name} ({i}){ext}"` — the collision-avoiding candidate name. -/
def candName (name ext : List Char) (i : Nat) : List Char :=
  name ++ (" (".data) ++ (Nat.repr i).data ++ (")".data) ++ ext

/-- The `while True` loop of `_safe_move` (functions.py lines 327–333),
trying `i = 2, 3, …`.  The `fuel` bound is an artifact of the embedding: the
Python loop just keeps incrementing `i`, and in a finite directory some
candidate is always free, so the loop always returns; `none` only signals
exhausted fuel, never a Python behaviour. -/
def findFree (name ext : List Char) (existing : List String) : Nat → Nat → Option String
  | _, 0 => none
  | i, fuel + 1 =>
    let cand := String.mk (candName name ext i)
    if !(existing.contains cand) then some cand
    else findFree name ext existing (i + 1) fuel

/-- The destination-name choice of `_safe_move`: keep the base name unless
an entry with that name already exists in the destination directory
(`existing` is the listing of `dst_dir`), else the first free
`"name (i)ext"` with `i ≥ 2`. -/
def safeMoveTarget (base : String) (existing : List String) (fuel : Nat) : Option String :=
  if !(existing.contains base) then some base
  else
    let ne := splitext base.data
    findFree ne.1 ne.2 existing 2 fuel

theorem findFree_spec (name ext : List Char) (existing : List String) :
    ∀ (fuel i : Nat) (r : String),
      findFree name ext existing i fuel = some r →
      r ∉ existing ∧
      ∃ k, i ≤ k ∧ r = String.mk (candName name ext k) ∧
        ∀ j, i ≤ j → j < k → String.mk (candName name ext j) ∈ existing := by
  intro fuel
  induction fuel with
  | zero => intro i r h; exact absurd h (by simp [findFree])
  | succ fuel ih =>
    intro i r h
    rw [findFree] at h
    cases hc : existing.contains (String.mk (candName name ext i)) with
    | true =>
      rw [hc] at h
      simp only [Bool.not_true, Bool.false_eq_true, if_false] at h
      obtain ⟨hnot, k, hik, hr, hmin⟩ := ih (i + 1) r h
      have hmem : String.mk (candName name ext i) ∈ existing := by simp at hc; exact hc
      refine ⟨hnot, k, by omega, hr, ?_⟩
      intro j h1 h2
      rcases Nat.eq_or_lt_of_le h1 with rfl | hlt
      · exact hmem
      · exact hmin j (by omega) h2
    | false =>
      rw [hc] at h
      simp only [Bool.not_false, if_true, Option.some.injEq] at h
      subst h
      have hmem : String.mk (candName name ext i) ∉ existing := by simp at hc; exact hc
      refine ⟨hmem, i, le_rfl, rfl, ?_⟩
      intro j h1 h2
      omega

/-- C10: whenever `_safe_move`'s naming loop settles on a destination name,
that name is not among the entries already present in the destination
directory — so no existing file is ever overwritten and every file present
before the move is still present, unchanged, after it; the base name is
kept when it is free, and otherwise the chosen name is `"name (i)ext"` for
the smallest `i ≥ 2` whose name is free (every smaller candidate from 2 up
is occupied). -/
theorem safe_move_no_overwrite (base : String) (existing : List String)
    (fuel : Nat) (r : String) (h : safeMoveTarget base existing fuel = some r) :
    r ∉ existing ∧
    (base ∉ existing → r = base) ∧
    (base ∈ existing →
      ∃ i, 2 ≤ i ∧
        r = String.mk (candName (splitext base.data).1 (splitext base.data).2 i) ∧
        ∀ j, 2 ≤ j → j < i →
          String.mk (candName (splitext base.data).1 (splitext base.data).2 j) ∈ existing) := by
  rw [safeMoveTarget] at h
  cases hc : existing.contains base with
  | true =>
    rw [hc] at h
    simp only [Bool.not_true, Bool.false_eq_true, if_false] at h
    obtain ⟨hnot, k, hik, hr, hmin⟩ := findFree_spec _ _ existing fuel 2 r h
    have hmem : base ∈ existing := by simp at hc; exact hc
    exact ⟨hnot, fun hb => absurd hmem hb, fun _ => ⟨k, hik, hr, hmin⟩⟩
  | false =>
    rw [hc] at h
    simp only [Bool.not_false, if_true, Option.some.injEq] at h
    subst h
    have hnot : base ∉ existing := by simp at hc; exact hc
    exact ⟨hnot, fun _ => rfl, fun hb => absurd hb hnot⟩

/-- C10 (witness): moving a file named "x.txt" into a directory already
holding "x.txt" and "x (2).txt" settles on the free name "x (3).txt". -/
theorem safe_move_no_overwrite_witness :
    "x (3).txt" ∉ ["x.txt", "x (2).txt"] ∧
    ("x.txt" ∉ ["x.txt", "x (2).txt"] → "x (3).txt" = "x.txt") ∧
    ("x.txt" ∈ ["x.txt", "x (2).txt"] →
      ∃ i, 2 ≤ i ∧
        "x (3).txt" = String.mk (candName (splitext "x.txt".data).1 (splitext "x.txt".data).2 i) ∧
        ∀ j, 2 ≤ j → j < i →
          String.mk (candName (splitext "x.txt".data).1 (splitext "x.txt".data).2 j)
            ∈ ["x.txt", "x (2).txt"]) :=
  safe_move_no_overwrite "x.txt" ["x.txt", "x (2).txt"] 5 "x (3).txt" (by decide)

/-! ## C8: `OrganizeDesktopInstaller.install` (functions.py lines 343–403)

The desktop is modelled as the list of its top-level entries in listing
order; a directory entry carries its own entries.  `os.makedirs` appends a
newly created directory at the end of the listing. -/

inductive FSEntry
  | file (name : String) (content : String)
  | dir (name : String) (children : List FSEntry)
deriving Repr

def FSEntry.name : FSEntry → String
  | .file n _ => n
  | .dir n _ => n

/-- Re-rooting an entry under a new name (what a `shutil.move` to a
different basename does): the contents move whole. -/
def FSEntry.withName : FSEntry → String → FSEntry
  | .file _ c, n => .file n c
  | .dir _ ch, n => .dir n ch

/-- Look up a top-level entry by name (path resolution of `desktop/<n>`). -/
def findEntry (top : List FSEntry) (n : String) : Option FSEntry :=
  top.find? (fun e => e.name == n)

/-- Delete the entry a path names (the source side of a move). -/
def removeFirst (n : String) : List FSEntry → List FSEntry
  | [] => []
  | e :: rest => if e.name == n then rest else e :: removeFirst n rest

/-- How one top-level entry is affected by a move into `dstName`: only the
directory of that name gains the moved entry, appended to its children. -/
def addChildFn (dstName : String) (child : FSEntry) : FSEntry → FSEntry
  | .dir n ch => if n == dstName then .dir n (ch ++ [child]) else .dir n ch
  | .file n c => .file n c

/-- Append `child` to the children of the top-level directory named
`dstName` (the destination side of a move). -/
def addChild (top : List FSEntry) (dstName : String) (child : FSEntry) : List FSEntry :=
  top.map (addChildFn dstName child)

/-- `os.makedirs(desktop/n, exist_ok=True)` at top level: no-op when a
directory exists, `FileExistsError` when a file is in the way. -/
def makedirsTop (top : List FSEntry) (n : String) : Except PyExc (List FSEntry) :=
  match findEntry top n with
  | some (.dir _ _) => .ok top
  | some (.file _ _) => .error .fileExistsError
  | none => .ok (top ++ [.dir n []])

/-- `OrganizeDesktopInstaller._safe_move` of the top-level entry named
`srcName` into the top-level directory `dstName` (functions.py lines
319–341).  Every failure path — the source has vanished, a directory being
moved into itself, a plain file in the way of `os.makedirs(dst_dir)` — is
caught inside `_safe_move` (`except Exception`) and leaves the filesystem
unchanged; a missing destination directory is recreated by the
`os.makedirs(dst_dir, exist_ok=True)` call, and a name collision inside the
destination is resolved by `safeMoveTarget`. -/
def safeMoveEntry (top : List FSEntry) (srcName dstName : String) (fuel : Nat) :
    List FSEntry :=
  match findEntry top srcName with
  | none => top
  | some src =>
    if srcName == dstName then top
    else
      match findEntry top dstName with
      | some (.file _ _) => top
      | some (.dir _ ch) =>
        match safeMoveTarget srcName (ch.map FSEntry.name) fuel with
        | none => top
        | some newName => addChild (removeFirst srcName top) dstName (src.withName newName)
      | none =>
        (removeFirst srcName top) ++ [.dir dstName [src.withName srcName]]

/-- The `(group, item)` pairs with a truthy `desktop_group`
(`OrganizeDesktopInstaller._collect_items`, functions.py lines 248–256). -/
def collectPairs (cats : List Category) : List (String × Item) :=
  ((cats.map Category.itemsList).flatten).filterMap (fun it =>
    match it.desktop_group with
    | some g => if !g.isEmpty then some (g, it) else none
    | none => none)

/-- The `if tok not in tokens: tokens.append(tok)` merge loop of
`_build_group_tokens`. -/
def addTokens (tokens : List String) : List String → List String
  | [] => tokens
  | t :: rest =>
    if tokens.contains t then addTokens tokens rest else addTokens (tokens ++ [t]) rest

/-- `OrganizeDesktopInstaller._build_group_tokens` (functions.py lines
290–301): an insertion-ordered map keyed by the lower-cased group name,
keeping the first spelling and merging each item's derived tokens. -/
def buildGroupTokensGo : List (String × Item) → List (String × String × List String) →
    List (String × String × List String)
  | [], acc => acc
  | (g, it) :: rest, acc =>
    let key := strLower g
    if acc.any (fun e => e.1 == key) then
      buildGroupTokensGo rest
        (acc.map (fun e => if e.1 == key then (e.1, e.2.1, addTokens e.2.2 (_derive_tokens it)) else e))
    else
      buildGroupTokensGo rest (acc ++ [(key, g, addTokens [] (_derive_tokens it))])

def _build_group_tokens (pairs : List (String × Item)) : List (String × List String) :=
  (buildGroupTokensGo pairs []).map (fun e => (e.2.1, e.2.2))

/-- Is the top-level path `n` currently a directory (`os.path.isdir`)? -/
def isDirName (top : List FSEntry) (n : String) : Bool :=
  match findEntry top n with
  | some (.dir _ _) => true
  | _ => false

/-- `s.endswith(suffix)`. -/
def strEndsWith (s suffix : String) : Bool :=
  startsWithChars s.data.reverse suffix.data.reverse

def endsWithLnkUrl (s : String) : Bool :=
  strEndsWith s ".lnk" || strEndsWith s ".url"

/-- `for g, _ in group_tokens: os.makedirs(os.path.join(desktop, g), exist_ok=True)`
(functions.py lines 363–365) — the one place of `install` whose exception is
*not* caught. -/
def mkGroupDirs (top : List FSEntry) : List String → Except PyExc (List FSEntry)
  | [] => .ok top
  | g :: rest =>
    match makedirsTop top g with
    | .error e => .error e
    | .ok top' => mkGroupDirs top' rest

/-- The directory pass of `install` (functions.py lines 367–379): iterate
the *stale* top-level name list, skip the protected (lower-cased) group
directories, and move each entry whose name scores a group.  The
`os.path.dirname(d) != desktop` guard is vacuous for these paths and has no
counterpart here. -/
def loopDirs (gts : List (String × List String)) (protecteds : List String)
    (fuel : Nat) : List String → List FSEntry → List FSEntry
  | [], top => top
  | d :: rest, top =>
    if protecteds.contains (strLower d) then loopDirs gts protecteds fuel rest top
    else
      match pick_group_for_entry d gts with
      | none => loopDirs gts protecteds fuel rest top
      | some chosen => loopDirs gts protecteds fuel rest (safeMoveEntry top d chosen fuel)

/-- The shortcut pass of `install` (functions.py lines 388–397): iterate the
refreshed name list and move every entry — file or directory, protected or
not — whose lower-cased name ends in `.lnk`/`.url` and scores a group.
`chosen` is computed on `os.path.basename(lower)`, the lower-cased name. -/
def loopShortcuts (gts : List (String × List String)) (fuel : Nat) :
    List String → List FSEntry → List FSEntry
  | [], top => top
  | p :: rest, top =>
    if !(endsWithLnkUrl (strLower p)) then loopShortcuts gts fuel rest top
    else
      match pick_group_for_entry (strLower p) gts with
      | none => loopShortcuts gts fuel rest top
      | some chosen => loopShortcuts gts fuel rest (safeMoveEntry top p chosen fuel)

/-- `OrganizeDesktopInstaller.install` (functions.py lines 343–403), given
an existing desktop: collect the grouping metadata (empty metadata returns
with the desktop untouched), snapshot the entry names, create the group
directories, run the directory pass over the stale snapshot, refresh the
listing, and run the shortcut pass. -/
def organizeInstall (cats : List Category) (top : List FSEntry) (fuel : Nat) :
    Except PyExc (List FSEntry) :=
  let pairs := collectPairs cats
  if pairs.isEmpty then .ok top
  else
    let entries0 := top.map FSEntry.name
    let gts := _build_group_tokens pairs
    let groupNames := gts.map Prod.fst
    match mkGroupDirs top groupNames with
    | .error e => .error e
    | .ok top1 =>
      let dirNames := entries0.filter (fun n => isDirName top1 n)
      let protecteds := groupNames.map strLower
      let top2 := loopDirs gts protecteds fuel dirNames top1
      let entries1 := top2.map FSEntry.name
      .ok (loopShortcuts gts fuel entries1 top2)

/-! ### Frame infrastructure for C8 -/

/-- `e` is an entry of the tree rooted at the listing `l`, at any depth. -/
inductive OccursIn (e : FSEntry) : List FSEntry → Prop
  | here {l : List FSEntry} : e ∈ l → OccursIn e l
  | deeper {l : List FSEntry} {n : String} {ch : List FSEntry} :
      FSEntry.dir n ch ∈ l → OccursIn e ch → OccursIn e l

/-- `e'` is the entry `e` moved whole: same kind, same file content, the
children list preserved exactly except for new entries appended at its end
(the root name alone may differ — a collision rename). -/
def extendsOf : FSEntry → FSEntry → Prop
  | .file _ c, .file _ c' => c = c'
  | .dir _ ch, .dir _ ch' => ∃ extra, ch' = ch ++ extra
  | _, _ => False

theorem extendsOf_refl (e : FSEntry) : extendsOf e e := by
  cases e with
  | file n c => exact rfl
  | dir n ch => exact ⟨[], by simp⟩

theorem extendsOf_trans {a b c : FSEntry} (h1 : extendsOf a b) (h2 : extendsOf b c) :
    extendsOf a c := by
  cases a <;> cases b <;> cases c <;> simp [extendsOf] at *
  · exact h1.trans h2
  · obtain ⟨x, hx⟩ := h1
    obtain ⟨y, hy⟩ := h2
    exact ⟨x ++ y, by rw [hy, hx, List.append_assoc]⟩

theorem extendsOf_withName (e : FSEntry) (n : String) : extendsOf e (e.withName n) := by
  cases e with
  | file m c => exact rfl
  | dir m ch => exact ⟨[], by simp⟩

theorem occursIn_mono {e : FSEntry} {l l' : List FSEntry}
    (hsub : ∀ x, x ∈ l → x ∈ l') (h : OccursIn e l) : OccursIn e l' := by
  induction h with
  | here hm => exact .here (hsub _ hm)
  | deeper hm hsub2 => exact .deeper (hsub _ hm) hsub2

theorem occursIn_append_left {e : FSEntry} {l l' : List FSEntry}
    (h : OccursIn e l) : OccursIn e (l ++ l') :=
  occursIn_mono (fun _ hx => List.mem_append_left _ hx) h

theorem occursIn_trans {e : FSEntry} {n : String} {ch : List FSEntry} {l : List FSEntry}
    (h1 : OccursIn (.dir n ch) l) (h2 : OccursIn e ch) : OccursIn e l := by
  induction h1 with
  | here hm => exact .deeper hm h2
  | @deeper l' m ch' hm _ ih => exact .deeper hm ih

/-- Every entry of `before`, at any depth, survives into `after` as a whole
subtree (same kind, content and children — children possibly extended by
appended entries, the root possibly renamed). -/
def preservedUnder (before after : List FSEntry) : Prop :=
  ∀ e, OccursIn e before → ∃ e', OccursIn e' after ∧ extendsOf e e'

theorem preservedUnder_refl (l : List FSEntry) : preservedUnder l l :=
  fun e he => ⟨e, he, extendsOf_refl e⟩

theorem preservedUnder_trans {a b c : List FSEntry}
    (h1 : preservedUnder a b) (h2 : preservedUnder b c) : preservedUnder a c := by
  intro e he
  obtain ⟨e', hb, hx⟩ := h1 e he
  obtain ⟨e'', hc, hy⟩ := h2 e' hb
  exact ⟨e'', hc, extendsOf_trans hx hy⟩

theorem mem_removeFirst_or {x : FSEntry} {l : List FSEntry} {n : String}
    (h : x ∈ l) : x ∈ removeFirst n l ∨ findEntry l n = some x := by
  induction l with
  | nil => simp at h
  | cons y rest ih =>
    rw [removeFirst]
    cases hy : (y.name == n) with
    | true =>
      have hf : findEntry (y :: rest) n = some y := by
        rw [findEntry, List.find?_cons, hy]
      rcases List.mem_cons.1 h with rfl | hm
      · right; rw [hf]
      · left; simpa using hm
    | false =>
      have hf : findEntry (y :: rest) n = findEntry rest n := by
        rw [findEntry, List.find?_cons, hy]; rfl
      rcases List.mem_cons.1 h with rfl | hm
      · left; simp
      · rcases ih hm with hrf | hfd
        · left; simp [hrf]
        · right; rw [hf, hfd]

theorem mem_removeFirst_of_ne {x : FSEntry} {l : List FSEntry} {n : String}
    (h : x ∈ l) (hne : x.name ≠ n) : x ∈ removeFirst n l := by
  rcases mem_removeFirst_or (n := n) h with h' | h'
  · exact h'
  · have := List.find?_some h'
    simp at this
    exact absurd this hne

theorem findEntry_name {l : List FSEntry} {n : String} {x : FSEntry}
    (h : findEntry l n = some x) : x.name = n := by
  have := List.find?_some h
  simpa using this

/-- The move primitive preserves every subtree: whatever `_safe_move` does
— nothing at all on any of its caught-failure paths, or reparenting one
top-level entry whole into a group directory (root possibly renamed,
destination children extended by one appended entry) — every entry of the
previous desktop tree survives. -/
theorem safeMove_preserves (top : List FSEntry) (src dst : String) (fuel : Nat) :
    preservedUnder top (safeMoveEntry top src dst fuel) := by
  unfold safeMoveEntry
  cases hsrc : findEntry top src with
  | none => exact preservedUnder_refl top
  | some srcE =>
    dsimp only
    by_cases hsd : (src == dst) = true
    · rw [if_pos hsd]; exact preservedUnder_refl top
    · rw [if_neg hsd]
      have hneq : ¬ dst = src := by
        intro h; subst h; exact hsd (by simp)
      cases hdst : findEntry top dst with
      | none =>
        dsimp only
        -- destination recreated empty; the source is appended inside it
        intro e he
        have hdirMem : FSEntry.dir dst [srcE.withName src]
            ∈ removeFirst src top ++ [FSEntry.dir dst [srcE.withName src]] :=
          List.mem_append_right _ (by simp)
        have hmv : OccursIn (srcE.withName src)
            (removeFirst src top ++ [FSEntry.dir dst [srcE.withName src]]) :=
          .deeper hdirMem (.here (by simp))
        cases he with
        | here hm =>
          rcases mem_removeFirst_or (n := src) hm with hrf | hfd
          · exact ⟨e, .here (List.mem_append_left _ hrf), extendsOf_refl e⟩
          · rw [hsrc] at hfd
            obtain rfl := Option.some.inj hfd
            exact ⟨srcE.withName src, hmv, extendsOf_withName srcE src⟩
        | deeper hm hsub =>
          rcases mem_removeFirst_or (n := src) hm with hrf | hfd
          · exact ⟨e, .deeper (List.mem_append_left _ hrf) hsub, extendsOf_refl e⟩
          · rw [hsrc] at hfd
            have hEq := Option.some.inj hfd
            subst hEq
            simp only [FSEntry.withName] at hmv
            exact ⟨e, occursIn_trans hmv hsub, extendsOf_refl e⟩
      | some dstE =>
        cases dstE with
        | file n c => exact preservedUnder_refl top
        | dir dn ch0 =>
          have hdn : dst = dn := (findEntry_name hdst).symm
          subst hdn
          dsimp only
          cases hfree : safeMoveTarget src (ch0.map FSEntry.name) fuel with
          | none => exact preservedUnder_refl top
          | some newName =>
            dsimp only
            have hdstMem : (FSEntry.dir dst ch0) ∈ top := List.mem_of_find?_eq_some hdst
            have hdstRf : (FSEntry.dir dst ch0) ∈ removeFirst src top :=
              mem_removeFirst_of_ne hdstMem (by simpa [FSEntry.name] using hneq)
            have himage : (FSEntry.dir dst (ch0 ++ [srcE.withName newName]))
                ∈ addChild (removeFirst src top) dst (srcE.withName newName) :=
              List.mem_map.2 ⟨.dir dst ch0, hdstRf, by simp [addChildFn]⟩
            have hmovedOcc : OccursIn (srcE.withName newName)
                (addChild (removeFirst src top) dst (srcE.withName newName)) :=
              .deeper himage (.here (by simp))
            have hx : ∀ x : FSEntry, x ∈ top →
                x ∈ addChild (removeFirst src top) dst (srcE.withName newName) ∨
                (∃ chx, x = FSEntry.dir dst chx ∧
                  (FSEntry.dir dst (chx ++ [srcE.withName newName]))
                    ∈ addChild (removeFirst src top) dst (srcE.withName newName)) ∨
                x = srcE := by
              intro x hxm
              rcases mem_removeFirst_or (n := src) hxm with hxrf | hxf
              · cases x with
                | file m c =>
                  left
                  exact List.mem_map.2 ⟨.file m c, hxrf, rfl⟩
                | dir m chx =>
                  by_cases hname : m = dst
                  · right; left
                    refine ⟨chx, by rw [hname], List.mem_map.2 ⟨.dir m chx, hxrf, ?_⟩⟩
                    rw [hname]
                    simp [addChildFn]
                  · left
                    refine List.mem_map.2 ⟨.dir m chx, hxrf, ?_⟩
                    simp [addChildFn, hname]
              · right; right
                rw [hsrc] at hxf
                exact (Option.some.inj hxf).symm
            intro e he
            cases he with
            | here hm =>
              rcases hx e hm with h1 | ⟨chx, rfl, h2⟩ | hEq
              · exact ⟨e, .here h1, extendsOf_refl e⟩
              · exact ⟨.dir dst (chx ++ [srcE.withName newName]), .here h2,
                  ⟨[srcE.withName newName], rfl⟩⟩
              · refine ⟨e.withName newName, ?_, extendsOf_withName e newName⟩
                rw [hEq]
                exact hmovedOcc
            | deeper hm hsub =>
              rcases hx _ hm with h1 | ⟨chx, hEq, h2⟩ | hEq
              · exact ⟨e, .deeper h1 hsub, extendsOf_refl e⟩
              · injection hEq with hn hch
                subst hch
                exact ⟨e, .deeper h2 (occursIn_append_left hsub), extendsOf_refl e⟩
              · rw [← hEq] at hmovedOcc
                simp only [FSEntry.withName] at hmovedOcc
                refine ⟨e, ?_, extendsOf_refl e⟩
                rw [← hEq]
                exact occursIn_trans hmovedOcc hsub

/-- A directory of this name exists at the top level of the desktop. -/
def hasDir (g : String) (top : List FSEntry) : Prop :=
  ∃ ch, FSEntry.dir g ch ∈ top

/-- A move whose source path differs from `g` never removes, renames or
relocates the top-level directory `g` (its children can only grow). -/
theorem hasDir_safeMove {g src dst : String} {top : List FSEntry} {fuel : Nat}
    (h : hasDir g top) (hneq : src ≠ g) :
    hasDir g (safeMoveEntry top src dst fuel) := by
  obtain ⟨ch, hch⟩ := h
  have hrf : FSEntry.dir g ch ∈ removeFirst src top :=
    mem_removeFirst_of_ne hch (by simp [FSEntry.name]; exact fun hx => hneq hx.symm)
  unfold safeMoveEntry
  cases hsrc : findEntry top src with
  | none => exact ⟨ch, hch⟩
  | some srcE =>
    dsimp only
    by_cases hsd : (src == dst) = true
    · rw [if_pos hsd]; exact ⟨ch, hch⟩
    · rw [if_neg hsd]
      cases hdst : findEntry top dst with
      | none =>
        exact ⟨ch, List.mem_append_left _ hrf⟩
      | some dstE =>
        cases dstE with
        | file n c => exact ⟨ch, hch⟩
        | dir dn ch0 =>
          have hdn : dst = dn := (findEntry_name hdst).symm
          subst hdn
          dsimp only
          cases hfree : safeMoveTarget src (ch0.map FSEntry.name) fuel with
          | none => exact ⟨ch, hch⟩
          | some newName =>
            dsimp only
            by_cases hgd : g = dst
            · subst hgd
              exact ⟨ch ++ [srcE.withName newName],
                List.mem_map.2 ⟨.dir g ch, hrf, by simp [addChildFn]⟩⟩
            · exact ⟨ch, List.mem_map.2 ⟨.dir g ch, hrf, by simp [addChildFn, hgd]⟩⟩

theorem preserved_makedirs {top : List FSEntry} {n : String} {top' : List FSEntry}
    (h : makedirsTop top n = .ok top') : preservedUnder top top' := by
  unfold makedirsTop at h
  cases hf : findEntry top n with
  | none =>
    rw [hf] at h
    obtain rfl := Except.ok.inj h
    intro e he
    exact ⟨e, occursIn_append_left he, extendsOf_refl e⟩
  | some x =>
    rw [hf] at h
    cases x with
    | file m c => exact absurd h (by simp)
    | dir m ch =>
      obtain rfl := Except.ok.inj h
      exact preservedUnder_refl top

theorem hasDir_makedirs_mono {top : List FSEntry} {n g : String} {top' : List FSEntry}
    (h : makedirsTop top n = .ok top') (hd : hasDir g top) : hasDir g top' := by
  unfold makedirsTop at h
  cases hf : findEntry top n with
  | none =>
    rw [hf] at h
    obtain rfl := Except.ok.inj h
    obtain ⟨ch, hch⟩ := hd
    exact ⟨ch, List.mem_append_left _ hch⟩
  | some x =>
    rw [hf] at h
    cases x with
    | file m c => exact absurd h (by simp)
    | dir m ch =>
      obtain rfl := Except.ok.inj h
      exact hd

theorem hasDir_makedirs_self {top : List FSEntry} {g : String} {top' : List FSEntry}
    (h : makedirsTop top g = .ok top') : hasDir g top' := by
  unfold makedirsTop at h
  cases hf : findEntry top g with
  | none =>
    rw [hf] at h
    obtain rfl := Except.ok.inj h
    exact ⟨[], List.mem_append_right _ (by simp)⟩
  | some x =>
    rw [hf] at h
    cases x with
    | file m c => exact absurd h (by simp)
    | dir m ch =>
      obtain rfl := Except.ok.inj h
      have hm : m = g := findEntry_name hf
      subst hm
      exact ⟨ch, List.mem_of_find?_eq_some hf⟩

theorem hasDir_mkGroupDirs_mono {g : String} :
    ∀ (gs : List String) (top top' : List FSEntry),
      mkGroupDirs top gs = .ok top' → hasDir g top → hasDir g top' := by
  intro gs
  induction gs with
  | nil =>
    intro top top' h hd
    obtain rfl := Except.ok.inj h
    exact hd
  | cons x rest ih =>
    intro top top' h hd
    rw [mkGroupDirs] at h
    cases hm : makedirsTop top x with
    | error e => rw [hm] at h; exact absurd h (by simp)
    | ok t1 =>
      rw [hm] at h
      exact ih t1 top' h (hasDir_makedirs_mono hm hd)

theorem mkGroupDirs_ok :
    ∀ (gs : List String) (top top' : List FSEntry),
      mkGroupDirs top gs = .ok top' →
      preservedUnder top top' ∧ ∀ g ∈ gs, hasDir g top' := by
  intro gs
  induction gs with
  | nil =>
    intro top top' h
    obtain rfl := Except.ok.inj h
    exact ⟨preservedUnder_refl top, by simp⟩
  | cons x rest ih =>
    intro top top' h
    rw [mkGroupDirs] at h
    cases hm : makedirsTop top x with
    | error e => rw [hm] at h; exact absurd h (by simp)
    | ok t1 =>
      rw [hm] at h
      obtain ⟨hpres, hall⟩ := ih t1 top' h
      refine ⟨preservedUnder_trans (preserved_makedirs hm) hpres, ?_⟩
      intro g hg
      rcases List.mem_cons.1 hg with rfl | hg'
      · exact hasDir_mkGroupDirs_mono rest t1 top' h (hasDir_makedirs_self hm)
      · exact hall g hg'

theorem loopDirs_preserves (gts : List (String × List String)) (protecteds : List String)
    (fuel : Nat) :
    ∀ (ds : List String) (top : List FSEntry),
      preservedUnder top (loopDirs gts protecteds fuel ds top) := by
  intro ds
  induction ds with
  | nil => intro top; exact preservedUnder_refl top
  | cons d rest ih =>
    intro top
    rw [loopDirs]
    by_cases hp : (protecteds.contains (strLower d)) = true
    · rw [if_pos hp]; exact ih top
    · rw [if_neg hp]
      cases hpick : pick_group_for_entry d gts with
      | none => exact ih top
      | some chosen =>
        exact preservedUnder_trans (safeMove_preserves top d chosen fuel)
          (ih (safeMoveEntry top d chosen fuel))

theorem loopDirs_hasDir {g : String} {gts : List (String × List String)}
    {protecteds : List String} {fuel : Nat} (hg : strLower g ∈ protecteds) :
    ∀ (ds : List String) (top : List FSEntry),
      hasDir g top → hasDir g (loopDirs gts protecteds fuel ds top) := by
  intro ds
  induction ds with
  | nil => intro top hd; exact hd
  | cons d rest ih =>
    intro top hd
    rw [loopDirs]
    by_cases hp : (protecteds.contains (strLower d)) = true
    · rw [if_pos hp]; exact ih top hd
    · rw [if_neg hp]
      cases hpick : pick_group_for_entry d gts with
      | none => exact ih top hd
      | some chosen =>
        have hne : d ≠ g := by
          intro hEq
          subst hEq
          exact hp (by simpa using hg)
        exact ih _ (hasDir_safeMove hd hne)

theorem loopShortcuts_preserves (gts : List (String × List String)) (fuel : Nat) :
    ∀ (ps : List String) (top : List FSEntry),
      preservedUnder top (loopShortcuts gts fuel ps top) := by
  intro ps
  induction ps with
  | nil => intro top; exact preservedUnder_refl top
  | cons p rest ih =>
    intro top
    rw [loopShortcuts]
    by_cases hs : (endsWithLnkUrl (strLower p)) = true
    · rw [if_neg (by simp [hs])]
      cases hpick : pick_group_for_entry (strLower p) gts with
      | none => exact ih top
      | some chosen =>
        exact preservedUnder_trans (safeMove_preserves top p chosen fuel)
          (ih (safeMoveEntry top p chosen fuel))
    · rw [if_pos (by simp at hs ⊢; exact hs)]
      exact ih top

theorem loopShortcuts_hasDir {g : String} {gts : List (String × List String)} {fuel : Nat}
    (hg : endsWithLnkUrl (strLower g) = false) :
    ∀ (ps : List String) (top : List FSEntry),
      hasDir g top → hasDir g (loopShortcuts gts fuel ps top) := by
  intro ps
  induction ps with
  | nil => intro top hd; exact hd
  | cons p rest ih =>
    intro top hd
    rw [loopShortcuts]
    by_cases hs : (endsWithLnkUrl (strLower p)) = true
    · rw [if_neg (by simp [hs])]
      cases hpick : pick_group_for_entry (strLower p) gts with
      | none => exact ih top hd
      | some chosen =>
        have hne : p ≠ g := by
          intro hEq
          subst hEq
          rw [hs] at hg
          cases hg
        exact ih _ (hasDir_safeMove hd hne)
    · rw [if_pos (by simp at hs ⊢; exact hs)]
      exact ih top hd

/-- C8 (amended): when `organize_desktop`'s reconciliation pass completes,
(i) every group folder whose lower-cased name does *not* end in
`.lnk`/`.url` is still a top-level directory of that exact name — never
moved, renamed or deleted (the directory pass skips the protected group
directories outright, and the shortcut pass can only touch entries with a
shortcut suffix); and (ii) the pass only restructures the top level: every
entry of the previous desktop tree, at any depth, survives whole — same
kind, same content, children preserved exactly except for entries appended
to a destination directory, the root name alone possibly collision-renamed.
Group folders *named like shortcuts* are exempt from (i): the shortcut pass
can move them (see the counterexample). -/
theorem organize_frame (cats : List Category) (top : List FSEntry) (fuel : Nat)
    (top' : List FSEntry) (h : organizeInstall cats top fuel = .ok top') :
    (∀ g ∈ (_build_group_tokens (collectPairs cats)).map Prod.fst,
       endsWithLnkUrl (strLower g) = false → hasDir g top') ∧
    preservedUnder top top' := by
  unfold organizeInstall at h
  by_cases hp : ((collectPairs cats).isEmpty) = true
  · rw [if_pos hp] at h
    obtain rfl := Except.ok.inj h
    have hnil : collectPairs cats = [] := List.isEmpty_iff.1 hp
    rw [hnil]
    exact ⟨by simp [_build_group_tokens, buildGroupTokensGo], preservedUnder_refl top⟩
  · rw [if_neg hp] at h
    dsimp only at h
    cases hmk : mkGroupDirs top ((_build_group_tokens (collectPairs cats)).map Prod.fst) with
    | error e => rw [hmk] at h; exact absurd h (by simp)
    | ok top1 =>
      rw [hmk] at h
      obtain rfl := Except.ok.inj h
      obtain ⟨hpres1, hall⟩ := mkGroupDirs_ok _ top top1 hmk
      constructor
      · intro g hg hext
        have hprot : strLower g
            ∈ ((_build_group_tokens (collectPairs cats)).map Prod.fst).map strLower :=
          List.mem_map.2 ⟨g, hg, rfl⟩
        exact loopShortcuts_hasDir hext _ _
          (loopDirs_hasDir hprot _ _ (hall g hg))
      · exact preservedUnder_trans hpres1
          (preservedUnder_trans (loopDirs_preserves _ _ _ _ _)
            (loopShortcuts_preserves _ _ _ _))

/-- A tool whose desktop group is named like a shortcut ("malware.url"). -/
def itMal : Item :=
  { id := some "m1", name := some "Mal", installer_type := some "function",
    installer := some "x", desktop_group := some "malware.url",
    desktop_keywords := ["zzzz"] }

/-- A second tool whose keyword "malware" matches the first group's folder
name. -/
def itAna : Item :=
  { id := some "a1", name := some "Ana", installer_type := some "function",
    installer := some "x", desktop_group := some "Analysis",
    desktop_keywords := ["malware"] }

def cfgC8 : List Category :=
  [{ hasId := true, hasName := true, items := some (.ofList [itMal, itAna]) }]

/-- C8 (counterexample): the claim says the reconciliation never moves a
group folder.  With groups "malware.url" and "Analysis", running the pass
on a desktop holding just one unrelated file creates both group folders and
then the shortcut pass — which, unlike the directory pass, has no
protected-folder check — moves the group folder "malware.url" itself into
"Analysis" (its name ends in ".url" and scores 7 ≥ 4 against the keyword
"malware"): the group folder is no longer a top-level directory. -/
theorem organize_moves_group_folder_cex :
    (_build_group_tokens (collectPairs cfgC8)).map Prod.fst = ["malware.url", "Analysis"] ∧
    organizeInstall cfgC8 [.file "notes.txt" ""] 5
      = .ok [.file "notes.txt" "", .dir "Analysis" [.dir "malware.url" []]] ∧
    ¬ hasDir "malware.url" [.file "notes.txt" "", .dir "Analysis" [.dir "malware.url" []]] := by
  refine ⟨by decide, rfl, ?_⟩
  rintro ⟨ch, hm⟩
  rcases List.mem_cons.1 hm with hEq | hm'
  · exact FSEntry.noConfusion hEq
  · rcases List.mem_cons.1 hm' with hEq | hm''
    · injection hEq with hn _
      exact absurd hn (by decide)
    · simp at hm''

/-- C8 (witness): the amended frame theorem applied to the concrete run of
the counterexample: the group "Analysis" (not shortcut-named) survives at
top level, and the original desktop content is preserved. -/
theorem organize_frame_witness :
    (∀ g ∈ (_build_group_tokens (collectPairs cfgC8)).map Prod.fst,
       endsWithLnkUrl (strLower g) = false →
       hasDir g [.file "notes.txt" "", .dir "Analysis" [.dir "malware.url" []]]) ∧
    preservedUnder [.file "notes.txt" ""]
      [.file "notes.txt" "", .dir "Analysis" [.dir "malware.url" []]] :=
  organize_frame cfgC8 [.file "notes.txt" ""] 5
    [.file "notes.txt" "", .dir "Analysis" [.dir "malware.url" []]] rfl

end HolmesVM
